import Mathlib

/-!
# Verification of `rotate_matrix.py`

A shallow embedding of the in-place 90° matrix rotation program
`rotate_matrix.py` (functions `odd`, `get_cycle`, `rotate_matrix`), together
with proofs of the specification's claims about it.

The matrix is a nested list of integers (`List (List ℤ)`), as in the Python
source.  Python integers are modelled by `ℤ`; Python `range` objects by
explicit integer range lists; Python list indexing (which resolves negative
indices from the end, and which is proved to stay in bounds wherever the
program uses it) by `pyIdx`; in-place element assignment by `List.set`.
-/

namespace RotateMatrix

/-- The list `[a, a+1, ..., b-1]`, i.e. Python `range(a, b)` over integers. -/
def rangeZ (a b : ℤ) : List ℤ :=
  (List.range (b - a).toNat).map (fun k : ℕ => a + (k : ℤ))

/-- The list `[a, a-1, ..., b+1]`, i.e. Python `range(a, b, -1)` over integers. -/
def rangeZNeg (a b : ℤ) : List ℤ :=
  (List.range (a - b).toNat).map (fun k : ℕ => a - (k : ℤ))

/-- Python index resolution on a list of length `n`: a negative index counts
from the end (`l[-1]` is the last element). -/
def pyIdx (n : ℕ) (i : ℤ) : ℤ :=
  if i < 0 then i + n else i

/-- `matr[r]` for a nested list: the row at (Python-resolved) index `r`.
An out-of-range access, which raises `IndexError` in Python, is proved
unreachable in the program; it returns `[]` here. -/
def pyRow (m : List (List ℤ)) (r : ℤ) : List ℤ :=
  m.getD (pyIdx m.length r).toNat []

/-- `matr[p.1][p.2]`: read one matrix entry. -/
def mget (m : List (List ℤ)) (p : ℤ × ℤ) : ℤ :=
  (pyRow m p.1).getD (pyIdx (pyRow m p.1).length p.2).toNat 0

/-- `matr[p.1][p.2] = v`: write one matrix entry (Python assigns in place;
here the updated nested list is returned). -/
def mset (m : List (List ℤ)) (p : ℤ × ℤ) (v : ℤ) : List (List ℤ) :=
  let r := (pyIdx m.length p.1).toNat
  let row := m.getD r []
  m.set r (row.set (pyIdx row.length p.2).toNat v)

/-- `rot[i]`: read an entry of the coordinate list returned by `get_cycle`. -/
def rotGet (rot : List (ℤ × ℤ)) (i : ℤ) : ℤ × ℤ :=
  rot.getD (pyIdx rot.length i).toNat (0, 0)

/-- `odd(dim, cycle)` from the source: if the dimension is odd, increase the
cycle number by one. -/
def odd (dim cycle : ℕ) : ℕ :=
  if dim % 2 ≠ 0 then cycle + 1 else cycle

/-- `get_cycle(cycle, dim)` from the source: the list of index pairs of one
rotation cycle (built clockwise from four loops: upper, right, lower going
backwards, left going backwards) together with the size (length of the upper
side minus one, recorded right after the upper side is appended). -/
def get_cycle (cycle dim : ℕ) : List (ℤ × ℤ) × ℤ :=
  let init : ℤ := (dim / 2 : ℕ)
  let top := (rangeZ (init - cycle - 1) (init + odd dim cycle + 1)).map
      (fun i => (init - cycle - 1, i))
  let size : ℤ := (top.length : ℤ) - 1
  let right := (rangeZ (init - cycle) (init + odd dim cycle + 1)).map
      (fun i => (i, init + odd dim cycle))
  let bottom := (rangeZNeg (init + odd dim cycle - 1) (init - cycle - 2)).map
      (fun i => ((init : ℤ) + odd dim cycle, i))
  let left := (rangeZNeg (init + odd dim cycle - 1) (init - cycle - 1)).map
      (fun i => (i, init - cycle - 1))
  (top ++ right ++ bottom ++ left, size)

/-- One `tmp`-mediated exchange from the body of `rotate_matrix`'s inner loop:
`tmp = matr[q]; matr[q] = matr[p]; matr[p] = tmp`. -/
def pyswap (m : List (List ℤ)) (p q : ℤ × ℤ) : List (List ℤ) :=
  let tmp := mget m q
  let m1 := mset m q (mget m p)
  mset m1 p tmp

/-- One iteration of the inner loop of `rotate_matrix`: at offset `i` of the
cycle, exchange `rot[i]` with `rot[i+size]` (upper side), then with
`rot[i+2*size]` (right side), then with `rot[i+3*size]` (lower side). -/
def quartetStep (rot : List (ℤ × ℤ)) (size : ℤ) (m : List (List ℤ)) (i : ℤ) :
    List (List ℤ) :=
  let m1 := pyswap m (rotGet rot i) (rotGet rot (i + size))
  let m2 := pyswap m1 (rotGet rot i) (rotGet rot (i + 2 * size))
  pyswap m2 (rotGet rot i) (rotGet rot (i + 3 * size))

/-- `rotate_matrix(matr)` from the source: for each cycle in
`range(int(dim/2))` get the cycle's coordinate list and size, and rotate the
elements around by the three exchanges per offset in `range(size)`. -/
def rotate_matrix (matr : List (List ℤ)) : List (List ℤ) :=
  let dim := matr.length
  let cycles := dim / 2
  (List.range cycles).foldl
    (fun m cycle =>
      let rs := get_cycle cycle dim
      (rangeZ 0 rs.2).foldl (quartetStep rs.1 rs.2) m)
    matr

/-- A well-formed square matrix: every row has as many entries as there are
rows. -/
def WF (m : List (List ℤ)) : Prop :=
  ∀ row ∈ m, row.length = m.length

instance (m : List (List ℤ)) : Decidable (WF m) := by
  unfold WF; infer_instance

/-- The clockwise rotation of a square matrix, written directly from the
spec's words: the entry of the result at row `i`, column `j` is the input's
entry at row `D-1-j`, column `i`. -/
def clockwiseRotation (m : List (List ℤ)) : List (List ℤ) :=
  (List.range m.length).map (fun i : ℕ =>
    (List.range m.length).map (fun j : ℕ =>
      mget m ((m.length : ℤ) - 1 - (j : ℤ), (i : ℤ))))

/-! ## Basic facts about the integer range lists -/

theorem rangeZ_length (a b : ℤ) : (rangeZ a b).length = (b - a).toNat := by
  rw [rangeZ, List.length_map, List.length_range]

theorem rangeZNeg_length (a b : ℤ) : (rangeZNeg a b).length = (a - b).toNat := by
  rw [rangeZNeg, List.length_map, List.length_range]

theorem rangeZ_getElem (a b : ℤ) (t : ℕ) (h : t < (rangeZ a b).length) :
    (rangeZ a b)[t] = a + t := by
  unfold rangeZ at h ⊢
  simp only [List.getElem_map, List.getElem_range]

theorem rangeZNeg_getElem (a b : ℤ) (t : ℕ) (h : t < (rangeZNeg a b).length) :
    (rangeZNeg a b)[t] = a - t := by
  unfold rangeZNeg at h ⊢
  simp only [List.getElem_map, List.getElem_range]

theorem mem_rangeZ {a b x : ℤ} : x ∈ rangeZ a b ↔ a ≤ x ∧ x < b := by
  rw [rangeZ]
  constructor
  · intro hx
    obtain ⟨k, hk, hkx⟩ := List.mem_map.mp hx
    rw [List.mem_range] at hk
    omega
  · rintro ⟨h1, h2⟩
    exact List.mem_map.mpr ⟨(x - a).toNat, List.mem_range.mpr (by omega), by omega⟩

theorem mem_rangeZNeg {a b x : ℤ} : x ∈ rangeZNeg a b ↔ b < x ∧ x ≤ a := by
  rw [rangeZNeg]
  constructor
  · intro hx
    obtain ⟨k, hk, hkx⟩ := List.mem_map.mp hx
    rw [List.mem_range] at hk
    omega
  · rintro ⟨h1, h2⟩
    exact List.mem_map.mpr ⟨(a - x).toNat, List.mem_range.mpr (by omega), by omega⟩

theorem rangeZ_nodup (a b : ℤ) : (rangeZ a b).Nodup := by
  rw [rangeZ]
  exact List.Nodup.map (fun u v h => by omega) (List.nodup_range _)

theorem rangeZNeg_nodup (a b : ℤ) : (rangeZNeg a b).Nodup := by
  rw [rangeZNeg]
  exact List.Nodup.map (fun u v h => by omega) (List.nodup_range _)

/-! ## The geometry of one cycle

For a cycle number `c` of a matrix of dimension `dim`, the coordinates
produced by `get_cycle` all lie between `lo dim c` (the top row / left
column of that ring) and `hi dim c` (the bottom row / right column). -/

/-- The smaller row/column index bounding cycle `c`: `int(dim/2) - c - 1`. -/
def lo (dim c : ℕ) : ℤ := ((dim / 2 : ℕ) : ℤ) - (c : ℤ) - 1

/-- The larger row/column index bounding cycle `c`:
`int(dim/2) + odd(dim, c)`. -/
def hi (dim c : ℕ) : ℤ := ((dim / 2 : ℕ) : ℤ) + (odd dim c : ℤ)

/-- The side length of cycle `c` (the `size` value returned by
`get_cycle`), as a natural number. -/
def sN (dim c : ℕ) : ℕ := 2 * c + dim % 2 + 1

theorem odd_cast (dim c : ℕ) : ((odd dim c : ℕ) : ℤ) = c + (dim % 2 : ℕ) := by
  unfold odd; split <;> push_cast <;> omega

theorem hi_sub_lo (dim c : ℕ) : hi dim c - lo dim c = (sN dim c : ℤ) := by
  unfold hi lo sN; rw [odd_cast]; push_cast; ring

theorem sN_pos (dim c : ℕ) : 1 ≤ sN dim c := by unfold sN; omega

theorem lo_add_hi (dim c : ℕ) : lo dim c + hi dim c = (dim : ℤ) - 1 := by
  unfold hi lo; rw [odd_cast]; push_cast; omega

theorem lo_nonneg (dim c : ℕ) (hc : c < dim / 2) : 0 ≤ lo dim c := by
  unfold lo; omega

theorem hi_lt_dim (dim c : ℕ) (hc : c < dim / 2) : hi dim c < (dim : ℤ) := by
  unfold hi; rw [odd_cast]; omega

/-- The four segments of a cycle's coordinate list: the upper side
(left to right, both corners). -/
def topSeg (dim c : ℕ) : List (ℤ × ℤ) :=
  (rangeZ (lo dim c) (hi dim c + 1)).map (fun i => (lo dim c, i))

/-- The right side (top to bottom, excluding the corner shared with the
upper side). -/
def rightSeg (dim c : ℕ) : List (ℤ × ℤ) :=
  (rangeZ (((dim / 2 : ℕ) : ℤ) - (c : ℤ)) (hi dim c + 1)).map
    (fun i => (i, hi dim c))

/-- The lower side (right to left, excluding the corner shared with the
right side, including the lower-left corner). -/
def bottomSeg (dim c : ℕ) : List (ℤ × ℤ) :=
  (rangeZNeg (hi dim c - 1) (((dim / 2 : ℕ) : ℤ) - (c : ℤ) - 2)).map
    (fun i => (hi dim c, i))

/-- The left side (bottom to top, excluding both corners). -/
def leftSeg (dim c : ℕ) : List (ℤ × ℤ) :=
  (rangeZNeg (hi dim c - 1) (lo dim c)).map (fun i => (i, lo dim c))

theorem get_cycle_fst (c dim : ℕ) :
    (get_cycle c dim).1 =
      topSeg dim c ++ rightSeg dim c ++ bottomSeg dim c ++ leftSeg dim c := rfl

theorem get_cycle_snd (c dim : ℕ) : (get_cycle c dim).2 = (sN dim c : ℤ) := by
  unfold get_cycle sN odd
  simp only [rangeZ_length, List.length_map]
  split <;> omega

theorem topSeg_length (dim c : ℕ) : (topSeg dim c).length = sN dim c + 1 := by
  have ho := odd_cast dim c
  unfold topSeg hi lo sN
  rw [List.length_map, rangeZ_length]; omega

theorem rightSeg_length (dim c : ℕ) : (rightSeg dim c).length = sN dim c := by
  have ho := odd_cast dim c
  unfold rightSeg hi sN
  rw [List.length_map, rangeZ_length]; omega

theorem bottomSeg_length (dim c : ℕ) : (bottomSeg dim c).length = sN dim c := by
  have ho := odd_cast dim c
  unfold bottomSeg hi sN
  rw [List.length_map, rangeZNeg_length]; omega

theorem leftSeg_length (dim c : ℕ) : (leftSeg dim c).length = sN dim c - 1 := by
  have ho := odd_cast dim c
  unfold leftSeg hi lo sN
  rw [List.length_map, rangeZNeg_length]; omega

theorem get_cycle_length (c dim : ℕ) :
    (get_cycle c dim).1.length = 4 * sN dim c := by
  have := sN_pos dim c
  simp only [get_cycle_fst, List.length_append, topSeg_length, rightSeg_length,
    bottomSeg_length, leftSeg_length]
  omega

theorem topSeg_get (dim c : ℕ) (t : ℕ) (h : t < (topSeg dim c).length) :
    (topSeg dim c)[t] = (lo dim c, lo dim c + t) := by
  unfold topSeg at h ⊢
  simp only [List.getElem_map]
  rw [rangeZ_getElem]

theorem rightSeg_get (dim c : ℕ) (t : ℕ) (h : t < (rightSeg dim c).length) :
    (rightSeg dim c)[t] = (lo dim c + 1 + t, hi dim c) := by
  have e : ((dim / 2 : ℕ) : ℤ) - (c : ℤ) = lo dim c + 1 := by unfold lo; ring
  unfold rightSeg at h ⊢
  simp only [List.getElem_map]
  rw [rangeZ_getElem, e]

theorem bottomSeg_get (dim c : ℕ) (t : ℕ) (h : t < (bottomSeg dim c).length) :
    (bottomSeg dim c)[t] = (hi dim c, hi dim c - 1 - t) := by
  unfold bottomSeg at h ⊢
  simp only [List.getElem_map]
  rw [rangeZNeg_getElem]

theorem leftSeg_get (dim c : ℕ) (t : ℕ) (h : t < (leftSeg dim c).length) :
    (leftSeg dim c)[t] = (hi dim c - 1 - t, lo dim c) := by
  unfold leftSeg at h ⊢
  simp only [List.getElem_map]
  rw [rangeZNeg_getElem]

/-! ## Reading the cycle list at the four aligned offsets

`rotate_matrix` reads the list returned by `get_cycle` at offsets `i`,
`i+size`, `i+2*size` and `i+3*size` for `i` in `[0, size)`.  The four
coordinates so obtained form one rotation quartet:
`(lo, lo+i)`, `(lo+i, hi)`, `(hi, hi-i)`, `(hi-i, lo)`. -/

theorem rotGet_toElem (c dim : ℕ) (j : ℤ) (h0 : 0 ≤ j)
    (hj : j.toNat < (get_cycle c dim).1.length) :
    rotGet (get_cycle c dim).1 j = (get_cycle c dim).1[j.toNat] := by
  unfold rotGet pyIdx
  rw [if_neg (by omega)]
  rw [List.getD_eq_getElem _ _ hj]

theorem quartet_a (c dim : ℕ) (i : ℤ) (h0 : 0 ≤ i) (hisz : i < sN dim c) :
    rotGet (get_cycle c dim).1 i = (lo dim c, lo dim c + i) := by
  have hs := sN_pos dim c
  have hA := topSeg_length dim c
  have hn : i.toNat < (get_cycle c dim).1.length := by
    rw [get_cycle_length]; omega
  rw [rotGet_toElem c dim i h0 hn]
  have hn2 : i.toNat < (topSeg dim c).length := by omega
  rw [List.getElem_of_eq (get_cycle_fst c dim) hn]
  simp only [List.append_assoc]
  rw [List.getElem_append_left hn2, topSeg_get]
  rw [Int.toNat_of_nonneg h0]

theorem quartet_b (c dim : ℕ) (i : ℤ) (h0 : 0 ≤ i) (hisz : i < sN dim c) :
    rotGet (get_cycle c dim).1 (i + sN dim c) = (lo dim c + i, hi dim c) := by
  have hs := sN_pos dim c
  have hA := topSeg_length dim c
  have hB := rightSeg_length dim c
  have hshl := hi_sub_lo dim c
  have hn : (i + sN dim c).toNat < (get_cycle c dim).1.length := by
    rw [get_cycle_length]; omega
  rw [rotGet_toElem c dim _ (by omega) hn]
  rw [List.getElem_of_eq (get_cycle_fst c dim) hn]
  simp only [List.append_assoc]
  rcases eq_or_lt_of_le h0 with h0e | h0lt
  · have hn2 : (i + sN dim c).toNat < (topSeg dim c).length := by omega
    rw [List.getElem_append_left hn2, topSeg_get]
    rw [Prod.ext_iff]
    constructor
    · simp; omega
    · simp; omega
  · have hn2 : (topSeg dim c).length ≤ (i + sN dim c).toNat := by omega
    rw [List.getElem_append_right hn2]
    have hn3 : (i + sN dim c).toNat - (topSeg dim c).length <
        (rightSeg dim c).length := by omega
    rw [List.getElem_append_left hn3, rightSeg_get]
    rw [Prod.ext_iff]
    constructor
    · simp; omega
    · simp

theorem quartet_c (c dim : ℕ) (i : ℤ) (h0 : 0 ≤ i) (hisz : i < sN dim c) :
    rotGet (get_cycle c dim).1 (i + 2 * sN dim c) = (hi dim c, hi dim c - i) := by
  have hs := sN_pos dim c
  have hA := topSeg_length dim c
  have hB := rightSeg_length dim c
  have hC := bottomSeg_length dim c
  have hshl := hi_sub_lo dim c
  have hn : (i + 2 * sN dim c).toNat < (get_cycle c dim).1.length := by
    rw [get_cycle_length]; omega
  rw [rotGet_toElem c dim _ (by omega) hn]
  rw [List.getElem_of_eq (get_cycle_fst c dim) hn]
  simp only [List.append_assoc]
  have hn2 : (topSeg dim c).length ≤ (i + 2 * sN dim c).toNat := by omega
  rw [List.getElem_append_right hn2]
  rcases eq_or_lt_of_le h0 with h0e | h0lt
  · have hn3 : (i + 2 * sN dim c).toNat - (topSeg dim c).length <
        (rightSeg dim c).length := by omega
    rw [List.getElem_append_left hn3, rightSeg_get]
    rw [Prod.ext_iff]
    constructor
    · simp; omega
    · simp; omega
  · have hn3 : (rightSeg dim c).length ≤
        (i + 2 * sN dim c).toNat - (topSeg dim c).length := by omega
    rw [List.getElem_append_right hn3]
    have hn4 : (i + 2 * sN dim c).toNat - (topSeg dim c).length -
        (rightSeg dim c).length < (bottomSeg dim c).length := by omega
    rw [List.getElem_append_left hn4, bottomSeg_get]
    rw [Prod.ext_iff]
    constructor
    · simp
    · simp; omega

theorem quartet_d (c dim : ℕ) (i : ℤ) (h0 : 0 ≤ i) (hisz : i < sN dim c) :
    rotGet (get_cycle c dim).1 (i + 3 * sN dim c) = (hi dim c - i, lo dim c) := by
  have hs := sN_pos dim c
  have hA := topSeg_length dim c
  have hB := rightSeg_length dim c
  have hC := bottomSeg_length dim c
  have hD := leftSeg_length dim c
  have hshl := hi_sub_lo dim c
  have hn : (i + 3 * sN dim c).toNat < (get_cycle c dim).1.length := by
    rw [get_cycle_length]; omega
  rw [rotGet_toElem c dim _ (by omega) hn]
  rw [List.getElem_of_eq (get_cycle_fst c dim) hn]
  simp only [List.append_assoc]
  have hn2 : (topSeg dim c).length ≤ (i + 3 * sN dim c).toNat := by omega
  rw [List.getElem_append_right hn2]
  have hn3 : (rightSeg dim c).length ≤
      (i + 3 * sN dim c).toNat - (topSeg dim c).length := by omega
  rw [List.getElem_append_right hn3]
  rcases eq_or_lt_of_le h0 with h0e | h0lt
  · have hn4 : (i + 3 * sN dim c).toNat - (topSeg dim c).length -
        (rightSeg dim c).length < (bottomSeg dim c).length := by omega
    rw [List.getElem_append_left hn4, bottomSeg_get]
    rw [Prod.ext_iff]
    constructor
    · simp; omega
    · simp; omega
  · have hn4 : (bottomSeg dim c).length ≤
        (i + 3 * sN dim c).toNat - (topSeg dim c).length -
          (rightSeg dim c).length := by omega
    rw [List.getElem_append_right hn4]
    rw [leftSeg_get]
    rw [Prod.ext_iff]
    constructor
    · simp; omega
    · simp

/-! ## Membership, distinctness and disjointness of the cycle lists -/

/-- A cell on the boundary of cycle `c`: both coordinates between
`lo` and `hi`, at least one of them extremal. -/
def borderCell (dim c : ℕ) (p : ℤ × ℤ) : Prop :=
  lo dim c ≤ p.1 ∧ p.1 ≤ hi dim c ∧ lo dim c ≤ p.2 ∧ p.2 ≤ hi dim c ∧
    (p.1 = lo dim c ∨ p.1 = hi dim c ∨ p.2 = lo dim c ∨ p.2 = hi dim c)

instance (dim c : ℕ) (p : ℤ × ℤ) : Decidable (borderCell dim c p) := by
  unfold borderCell; infer_instance

/-- The distance of a cell from the closest matrix edge. -/
def minDist (dim : ℕ) (p : ℤ × ℤ) : ℤ :=
  min (min p.1 p.2) (min ((dim : ℤ) - 1 - p.1) ((dim : ℤ) - 1 - p.2))

theorem borderCell_iff_minDist (dim c : ℕ) (p : ℤ × ℤ) :
    borderCell dim c p ↔ minDist dim p = lo dim c := by
  have hlh := lo_add_hi dim c
  have hsl := hi_sub_lo dim c
  have hs := sN_pos dim c
  unfold borderCell minDist
  omega

theorem topSeg_mem (dim c : ℕ) (p : ℤ × ℤ) :
    p ∈ topSeg dim c ↔ p.1 = lo dim c ∧ lo dim c ≤ p.2 ∧ p.2 ≤ hi dim c := by
  obtain ⟨p1, p2⟩ := p
  unfold topSeg
  rw [List.mem_map]
  constructor
  · rintro ⟨j, hj, hjp⟩
    rw [mem_rangeZ] at hj
    obtain ⟨rfl, rfl⟩ := Prod.mk.injEq .. ▸ hjp
    refine ⟨rfl, by omega, by omega⟩
  · rintro ⟨h1, h2, h3⟩
    exact ⟨p2, mem_rangeZ.mpr (by omega), by simp [h1.symm]⟩

theorem rightSeg_mem (dim c : ℕ) (p : ℤ × ℤ) :
    p ∈ rightSeg dim c ↔
      p.2 = hi dim c ∧ lo dim c + 1 ≤ p.1 ∧ p.1 ≤ hi dim c := by
  obtain ⟨p1, p2⟩ := p
  have e : ((dim / 2 : ℕ) : ℤ) - (c : ℤ) = lo dim c + 1 := by unfold lo; ring
  unfold rightSeg
  rw [List.mem_map]
  constructor
  · rintro ⟨j, hj, hjp⟩
    rw [mem_rangeZ] at hj
    obtain ⟨rfl, rfl⟩ := Prod.mk.injEq .. ▸ hjp
    refine ⟨rfl, by omega, by omega⟩
  · rintro ⟨h1, h2, h3⟩
    exact ⟨p1, mem_rangeZ.mpr (by omega), by simp [h1.symm]⟩

theorem bottomSeg_mem (dim c : ℕ) (p : ℤ × ℤ) :
    p ∈ bottomSeg dim c ↔
      p.1 = hi dim c ∧ lo dim c ≤ p.2 ∧ p.2 ≤ hi dim c - 1 := by
  obtain ⟨p1, p2⟩ := p
  have e : ((dim / 2 : ℕ) : ℤ) - (c : ℤ) - 2 = lo dim c - 1 := by unfold lo; ring
  unfold bottomSeg
  rw [List.mem_map]
  constructor
  · rintro ⟨j, hj, hjp⟩
    rw [mem_rangeZNeg] at hj
    obtain ⟨rfl, rfl⟩ := Prod.mk.injEq .. ▸ hjp
    refine ⟨rfl, by omega, by omega⟩
  · rintro ⟨h1, h2, h3⟩
    exact ⟨p2, mem_rangeZNeg.mpr (by omega), by simp [h1.symm]⟩

theorem leftSeg_mem (dim c : ℕ) (p : ℤ × ℤ) :
    p ∈ leftSeg dim c ↔
      p.2 = lo dim c ∧ lo dim c + 1 ≤ p.1 ∧ p.1 ≤ hi dim c - 1 := by
  obtain ⟨p1, p2⟩ := p
  unfold leftSeg
  rw [List.mem_map]
  constructor
  · rintro ⟨j, hj, hjp⟩
    rw [mem_rangeZNeg] at hj
    obtain ⟨rfl, rfl⟩ := Prod.mk.injEq .. ▸ hjp
    refine ⟨rfl, by omega, by omega⟩
  · rintro ⟨h1, h2, h3⟩
    exact ⟨p1, mem_rangeZNeg.mpr (by omega), by simp [h1.symm]⟩

theorem mem_get_cycle (c dim : ℕ) (p : ℤ × ℤ) :
    p ∈ (get_cycle c dim).1 ↔ borderCell dim c p := by
  have hsl := hi_sub_lo dim c
  have hs := sN_pos dim c
  rw [get_cycle_fst]
  simp only [List.mem_append, topSeg_mem, rightSeg_mem, bottomSeg_mem,
    leftSeg_mem, borderCell]
  omega

theorem get_cycle_nodup (c dim : ℕ) : (get_cycle c dim).1.Nodup := by
  rw [get_cycle_fst]
  have htop : (topSeg dim c).Nodup := by
    unfold topSeg
    exact List.Nodup.map (fun u v h => by simpa using h) (rangeZ_nodup _ _)
  have hright : (rightSeg dim c).Nodup := by
    unfold rightSeg
    exact List.Nodup.map (fun u v h => by simpa using h) (rangeZ_nodup _ _)
  have hbottom : (bottomSeg dim c).Nodup := by
    unfold bottomSeg
    exact List.Nodup.map (fun u v h => by simpa using h) (rangeZNeg_nodup _ _)
  have hleft : (leftSeg dim c).Nodup := by
    unfold leftSeg
    exact List.Nodup.map (fun u v h => by simpa using h) (rangeZNeg_nodup _ _)
  have hs := sN_pos dim c
  have hsl := hi_sub_lo dim c
  refine List.Nodup.append (List.Nodup.append (List.Nodup.append htop hright ?_)
    hbottom ?_) hleft ?_
  · intro p hp hq
    rw [topSeg_mem] at hp
    rw [rightSeg_mem] at hq
    omega
  · intro p hp hq
    rw [List.mem_append, topSeg_mem, rightSeg_mem] at hp
    rw [bottomSeg_mem] at hq
    omega
  · intro p hp hq
    rw [List.mem_append, List.mem_append, topSeg_mem, rightSeg_mem,
      bottomSeg_mem] at hp
    rw [leftSeg_mem] at hq
    omega

/-! ## Rotation quartets -/

/-- The four cells read and written by iteration `i` of the inner loop of
`rotate_matrix` on cycle `c`. -/
def inQuartet (dim c : ℕ) (i : ℤ) (p : ℤ × ℤ) : Prop :=
  p = (lo dim c, lo dim c + i) ∨ p = (lo dim c + i, hi dim c) ∨
    p = (hi dim c, hi dim c - i) ∨ p = (hi dim c - i, lo dim c)

theorem inQuartet_inj (dim c : ℕ) (i j : ℤ) (h0i : 0 ≤ i) (hi : i < sN dim c)
    (h0j : 0 ≤ j) (hj : j < sN dim c) (p : ℤ × ℤ)
    (hpi : inQuartet dim c i p) (hpj : inQuartet dim c j p) : i = j := by
  have hsl := hi_sub_lo dim c
  obtain ⟨p1, p2⟩ := p
  simp only [inQuartet, Prod.mk.injEq] at hpi hpj
  omega

theorem exists_inQuartet_iff (dim c : ℕ) (p : ℤ × ℤ) :
    (∃ i : ℤ, 0 ≤ i ∧ i < sN dim c ∧ inQuartet dim c i p) ↔
      borderCell dim c p := by
  have hsl := hi_sub_lo dim c
  have hs := sN_pos dim c
  obtain ⟨p1, p2⟩ := p
  constructor
  · rintro ⟨i, h0, hi, hq⟩
    simp only [inQuartet, Prod.mk.injEq] at hq
    unfold borderCell
    omega
  · intro hb
    unfold borderCell at hb
    simp only [inQuartet, Prod.mk.injEq]
    by_cases h1 : p1 = lo dim c
    · by_cases h2 : p2 = hi dim c
      · exact ⟨0, by omega, by omega, by omega⟩
      · exact ⟨p2 - lo dim c, by omega, by omega, by omega⟩
    · by_cases h2 : p1 = hi dim c
      · by_cases h3 : p2 = lo dim c
        · exact ⟨0, by omega, by omega, by omega⟩
        · exact ⟨hi dim c - p2, by omega, by omega, by omega⟩
      · by_cases h3 : p2 = hi dim c
        · exact ⟨p1 - lo dim c, by omega, by omega, by omega⟩
        · exact ⟨hi dim c - p1, by omega, by omega, by omega⟩

/-! ## Reading and writing matrix entries -/

theorem getD_set_self {α} (l : List α) (n : ℕ) (a d : α) (h : n < l.length) :
    (l.set n a).getD n d = a := by
  rw [List.getD_eq_getElem _ _ (by simpa using h)]
  exact List.getElem_set_self _

theorem getD_set_ne {α} (l : List α) (n n2 : ℕ) (a d : α) (h : n2 ≠ n) :
    (l.set n a).getD n2 d = l.getD n2 d := by
  by_cases h2 : n2 < l.length
  · rw [List.getD_eq_getElem _ _ (by simpa using h2),
      List.getD_eq_getElem _ _ h2]
    exact List.getElem_set_ne (Ne.symm h) _
  · rw [List.getD_eq_default _ _ (by simp; omega),
      List.getD_eq_default _ _ (by omega)]

theorem getD_row_length {m : List (List ℤ)} (hWF : WF m) (r : ℕ)
    (hr : r < m.length) : (m.getD r []).length = m.length := by
  rw [List.getD_eq_getElem _ _ hr]
  exact hWF _ (List.getElem_mem _)

theorem mget_nonneg (m : List (List ℤ)) (p : ℤ × ℤ) (h1 : 0 ≤ p.1)
    (h2 : 0 ≤ p.2) :
    mget m p = (m.getD p.1.toNat []).getD p.2.toNat 0 := by
  unfold mget pyRow pyIdx
  rw [if_neg (by omega), if_neg (by omega)]

theorem mset_nonneg (m : List (List ℤ)) (p : ℤ × ℤ) (v : ℤ) (h1 : 0 ≤ p.1)
    (h2 : 0 ≤ p.2) :
    mset m p v = m.set p.1.toNat ((m.getD p.1.toNat []).set p.2.toNat v) := by
  simp only [mset, pyIdx]
  rw [if_neg (show ¬p.1 < 0 by omega), if_neg (show ¬p.2 < 0 by omega)]

theorem length_mset (m : List (List ℤ)) (p : ℤ × ℤ) (v : ℤ) :
    (mset m p v).length = m.length := by
  unfold mset
  exact List.length_set ..

theorem WF_mset {m : List (List ℤ)} (hWF : WF m) (p : ℤ × ℤ) (v : ℤ) :
    WF (mset m p v) := by
  intro row hrow
  rw [length_mset]
  unfold mset at hrow
  by_cases hr : (pyIdx m.length p.1).toNat < m.length
  · rcases List.mem_or_eq_of_mem_set hrow with hmem | rfl
    · exact hWF _ hmem
    · rw [List.length_set]
      exact getD_row_length hWF _ hr
  · rw [List.set_eq_of_length_le (by omega)] at hrow
    exact hWF _ hrow

theorem mget_mset {m : List (List ℤ)} (hWF : WF m) (p q : ℤ × ℤ) (v : ℤ)
    (hp1 : 0 ≤ p.1) (hp2 : p.1 < (m.length : ℤ))
    (hp3 : 0 ≤ p.2) (hp4 : p.2 < (m.length : ℤ))
    (hq1 : 0 ≤ q.1) (hq2 : q.1 < (m.length : ℤ))
    (hq3 : 0 ≤ q.2) (hq4 : q.2 < (m.length : ℤ)) :
    mget (mset m p v) q = if q = p then v else mget m q := by
  rw [mset_nonneg m p v hp1 hp3, mget_nonneg _ q hq1 hq3,
    mget_nonneg m q hq1 hq3]
  have hrowlen : (m.getD p.1.toNat []).length = m.length :=
    getD_row_length hWF _ (by omega)
  by_cases hq : q = p
  · subst hq
    rw [if_pos rfl]
    rw [getD_set_self _ _ _ _ (by omega)]
    rw [getD_set_self _ _ _ _ (by omega)]
  · rw [if_neg hq]
    by_cases hfst : q.1 = p.1
    · have hsnd : q.2 ≠ p.2 := by
        intro h
        exact hq (Prod.ext_iff.mpr ⟨hfst, h⟩)
      rw [hfst]
      rw [getD_set_self _ _ _ _ (by omega)]
      rw [getD_set_ne _ _ _ _ _ (by omega)]
    · rw [getD_set_ne _ _ _ _ _ (by omega)]

theorem WF_pyswap {m : List (List ℤ)} (hWF : WF m) (p q : ℤ × ℤ) :
    WF (pyswap m p q) := WF_mset (WF_mset hWF _ _) _ _

theorem length_pyswap (m : List (List ℤ)) (p q : ℤ × ℤ) :
    (pyswap m p q).length = m.length := by
  unfold pyswap
  rw [length_mset, length_mset]

/-- In-bounds coordinates for a matrix of dimension `n`. -/
def inBounds (n : ℕ) (p : ℤ × ℤ) : Prop :=
  0 ≤ p.1 ∧ p.1 < (n : ℤ) ∧ 0 ≤ p.2 ∧ p.2 < (n : ℤ)

instance (n : ℕ) (p : ℤ × ℤ) : Decidable (inBounds n p) := by
  unfold inBounds; infer_instance

theorem mget_pyswap {m : List (List ℤ)} (hWF : WF m) (p q x : ℤ × ℤ)
    (hp : inBounds m.length p) (hq : inBounds m.length q)
    (hx : inBounds m.length x) :
    mget (pyswap m p q) x =
      if x = p then mget m q else if x = q then mget m p else mget m x := by
  obtain ⟨hp1, hp2, hp3, hp4⟩ := hp
  obtain ⟨hq1, hq2, hq3, hq4⟩ := hq
  obtain ⟨hx1, hx2, hx3, hx4⟩ := hx
  unfold pyswap
  have hWF1 : WF (mset m q (mget m p)) := WF_mset hWF _ _
  have hlen1 : (mset m q (mget m p)).length = m.length := length_mset ..
  rw [mget_mset hWF1 p x _ (by omega) (by omega) (by omega) (by omega)
    (by omega) (by omega) (by omega) (by omega)]
  by_cases hxp : x = p
  · rw [if_pos hxp, if_pos hxp]
  · rw [if_neg hxp, if_neg hxp]
    rw [mget_mset hWF q x _ hq1 hq2 hq3 hq4 hx1 hx2 hx3 hx4]

/-! ## The multiset of entries -/

/-- All entries of the matrix, as a multiset. -/
def entries (m : List (List ℤ)) : Multiset ℤ :=
  (m.map (fun row : List ℤ => (row : Multiset ℤ))).sum

theorem set_coe (l : List ℤ) (n : ℕ) (v : ℤ) (h : n < l.length) :
    ((l.set n v : List ℤ) : Multiset ℤ) + {l.getD n 0} =
      (l : Multiset ℤ) + {v} := by
  rw [List.getD_eq_getElem _ _ h]
  rw [List.set_eq_take_cons_drop _ h]
  conv_rhs => rw [← List.take_append_drop n l]
  rw [← List.getElem_cons_drop l n h]
  rw [← Multiset.coe_add, ← Multiset.coe_add, ← Multiset.cons_coe,
    ← Multiset.cons_coe]
  rw [← Multiset.singleton_add, ← Multiset.singleton_add]
  abel

theorem entries_set_row (m : List (List ℤ)) (r : ℕ) (hr : r < m.length)
    (row2 : List ℤ) :
    entries (m.set r row2) + (m.getD r [] : Multiset ℤ) =
      entries m + (row2 : Multiset ℤ) := by
  unfold entries
  rw [List.getD_eq_getElem _ _ hr]
  rw [List.set_eq_take_cons_drop _ hr]
  conv_rhs => rw [← List.take_append_drop r m]
  rw [← List.getElem_cons_drop m r hr]
  rw [List.map_append, List.map_append, List.map_cons, List.map_cons,
    List.sum_append, List.sum_append, List.sum_cons, List.sum_cons]
  abel

theorem entries_mset {m : List (List ℤ)} (hWF : WF m) (p : ℤ × ℤ) (v : ℤ)
    (hp : inBounds m.length p) :
    entries (mset m p v) + {mget m p} = entries m + {v} := by
  obtain ⟨hp1, hp2, hp3, hp4⟩ := hp
  have hrowlen : (m.getD p.1.toNat []).length = m.length :=
    getD_row_length hWF _ (by omega)
  rw [mset_nonneg m p v hp1 hp3, mget_nonneg m p hp1 hp3]
  have h1 := entries_set_row m p.1.toNat (by omega)
    ((m.getD p.1.toNat []).set p.2.toNat v)
  have h2 := set_coe (m.getD p.1.toNat []) p.2.toNat v (by omega)
  have h3 : entries (m.set p.1.toNat ((m.getD p.1.toNat []).set p.2.toNat v)) +
      (m.getD p.1.toNat [] : Multiset ℤ) + {(m.getD p.1.toNat []).getD p.2.toNat 0} =
      entries m + (m.getD p.1.toNat [] : Multiset ℤ) + {v} := by
    rw [h1]
    rw [add_assoc, add_assoc, h2]
  have h4 := add_right_cancel
    (a := entries (m.set p.1.toNat ((m.getD p.1.toNat []).set p.2.toNat v)) +
      {(m.getD p.1.toNat []).getD p.2.toNat 0})
    (b := (m.getD p.1.toNat [] : Multiset ℤ))
    (c := entries m + {v})
  apply h4
  calc entries (m.set p.1.toNat ((m.getD p.1.toNat []).set p.2.toNat v)) +
        {(m.getD p.1.toNat []).getD p.2.toNat 0} +
        (m.getD p.1.toNat [] : Multiset ℤ)
      = entries (m.set p.1.toNat ((m.getD p.1.toNat []).set p.2.toNat v)) +
        (m.getD p.1.toNat [] : Multiset ℤ) +
        {(m.getD p.1.toNat []).getD p.2.toNat 0} := by abel
    _ = entries m + (m.getD p.1.toNat [] : Multiset ℤ) + {v} := h3
    _ = entries m + {v} + (m.getD p.1.toNat [] : Multiset ℤ) := by abel

theorem entries_pyswap {m : List (List ℤ)} (hWF : WF m) (p q : ℤ × ℤ)
    (hp : inBounds m.length p) (hq : inBounds m.length q) :
    entries (pyswap m p q) = entries m := by
  unfold pyswap
  have hWF1 : WF (mset m q (mget m p)) := WF_mset hWF _ _
  have hlen1 : (mset m q (mget m p)).length = m.length := length_mset ..
  have h1 := entries_mset hWF q (mget m p) hq
  have h2 := entries_mset hWF1 p (mget m q) (by rw [hlen1]; exact hp)
  have h3 : mget (mset m q (mget m p)) p = mget m p := by
    obtain ⟨hp1, hp2, hp3, hp4⟩ := hp
    obtain ⟨hq1, hq2, hq3, hq4⟩ := hq
    rw [mget_mset hWF q p _ hq1 hq2 hq3 hq4 hp1 hp2 hp3 hp4]
    split <;> rename_i h
    · rw [h]
    · rfl
  rw [h3] at h2
  have := h2.trans h1
  exact add_right_cancel this

theorem mget_pyswap_fst {m : List (List ℤ)} (hWF : WF m) (p q : ℤ × ℤ)
    (hp : inBounds m.length p) (hq : inBounds m.length q) :
    mget (pyswap m p q) p = mget m q := by
  rw [mget_pyswap hWF p q p hp hq hp, if_pos rfl]

theorem mget_pyswap_snd {m : List (List ℤ)} (hWF : WF m) (p q : ℤ × ℤ)
    (hp : inBounds m.length p) (hq : inBounds m.length q) (hqp : q ≠ p) :
    mget (pyswap m p q) q = mget m p := by
  rw [mget_pyswap hWF p q q hp hq hq, if_neg hqp, if_pos rfl]

theorem mget_pyswap_other {m : List (List ℤ)} (hWF : WF m) (p q x : ℤ × ℤ)
    (hp : inBounds m.length p) (hq : inBounds m.length q)
    (hx : inBounds m.length x) (hxp : x ≠ p) (hxq : x ≠ q) :
    mget (pyswap m p q) x = mget m x := by
  rw [mget_pyswap hWF p q x hp hq hx, if_neg hxp, if_neg hxq]

/-! ## The effect of one quartet step -/

theorem length_quartetStep (rot : List (ℤ × ℤ)) (s : ℤ) (m : List (List ℤ))
    (i : ℤ) : (quartetStep rot s m i).length = m.length := by
  unfold quartetStep
  rw [length_pyswap, length_pyswap, length_pyswap]

theorem WF_quartetStep {m : List (List ℤ)} (hWF : WF m) (rot : List (ℤ × ℤ))
    (s i : ℤ) : WF (quartetStep rot s m i) :=
  WF_pyswap (WF_pyswap (WF_pyswap hWF _ _) _ _) _ _

/-- Pointwise effect of one iteration of the inner loop: with the four read
positions `a = rot[i]`, `b = rot[i+size]`, `c = rot[i+2*size]`,
`d = rot[i+3*size]` pairwise distinct and in bounds, the three
`tmp`-exchanges cyclically advance the four entries and leave every other
entry unchanged. -/
theorem mget_quartetStep {m : List (List ℤ)} (hWF : WF m)
    (rot : List (ℤ × ℤ)) (s i : ℤ) (a b cc d : ℤ × ℤ)
    (ha : rotGet rot i = a) (hb : rotGet rot (i + s) = b)
    (hc : rotGet rot (i + 2 * s) = cc) (hd : rotGet rot (i + 3 * s) = d)
    (hba : inBounds m.length a) (hbb : inBounds m.length b)
    (hbc : inBounds m.length cc) (hbd : inBounds m.length d)
    (hab : a ≠ b) (hac : a ≠ cc) (had : a ≠ d)
    (hbc2 : b ≠ cc) (hbd2 : b ≠ d) (hcd : cc ≠ d)
    (x : ℤ × ℤ) (hbx : inBounds m.length x) :
    mget (quartetStep rot s m i) x =
      if x = a then mget m d
      else if x = b then mget m a
      else if x = cc then mget m b
      else if x = d then mget m cc
      else mget m x := by
  unfold quartetStep
  rw [ha, hb, hc, hd]
  have hWF1 : WF (pyswap m a b) := WF_pyswap hWF _ _
  have hlen1 : (pyswap m a b).length = m.length := length_pyswap ..
  have hWF2 : WF (pyswap (pyswap m a b) a cc) := WF_pyswap hWF1 _ _
  have hlen2 : (pyswap (pyswap m a b) a cc).length = m.length := by
    rw [length_pyswap, hlen1]
  have hba1 : inBounds (pyswap m a b).length a := by rw [hlen1]; exact hba
  have hbb1 : inBounds (pyswap m a b).length b := by rw [hlen1]; exact hbb
  have hbc1 : inBounds (pyswap m a b).length cc := by rw [hlen1]; exact hbc
  have hbd1 : inBounds (pyswap m a b).length d := by rw [hlen1]; exact hbd
  have hbx1 : inBounds (pyswap m a b).length x := by rw [hlen1]; exact hbx
  have hba2 : inBounds (pyswap (pyswap m a b) a cc).length a := by
    rw [hlen2]; exact hba
  have hbc2b : inBounds (pyswap (pyswap m a b) a cc).length cc := by
    rw [hlen2]; exact hbc
  have hbd2b : inBounds (pyswap (pyswap m a b) a cc).length d := by
    rw [hlen2]; exact hbd
  have hbx2 : inBounds (pyswap (pyswap m a b) a cc).length x := by
    rw [hlen2]; exact hbx
  by_cases hxa : x = a
  · subst hxa
    rw [if_pos rfl]
    rw [mget_pyswap_fst hWF2 x d hba2 hbd2b]
    rw [mget_pyswap_other hWF1 x cc d hba1 hbc1 hbd1 (Ne.symm had)
      (Ne.symm hcd)]
    rw [mget_pyswap_other hWF x b d hba hbb hbd (Ne.symm had) (Ne.symm hbd2)]
  · rw [if_neg hxa]
    by_cases hxb : x = b
    · subst hxb
      rw [if_pos rfl]
      rw [mget_pyswap_other hWF2 a d x hba2 hbd2b hbx2 hxa hbd2]
      rw [mget_pyswap_other hWF1 a cc x hba1 hbc1 hbx1 hxa hbc2]
      rw [mget_pyswap_snd hWF a x hba hbx hxa]
    · rw [if_neg hxb]
      by_cases hxc : x = cc
      · subst hxc
        rw [if_pos rfl]
        rw [mget_pyswap_other hWF2 a d x hba2 hbd2b hbx2 hxa hcd]
        rw [mget_pyswap_snd hWF1 a x hba1 hbx1 hxa]
        rw [mget_pyswap_fst hWF a b hba hbb]
      · rw [if_neg hxc]
        by_cases hxd : x = d
        · subst hxd
          rw [if_pos rfl]
          rw [mget_pyswap_snd hWF2 a x hba2 hbx2 hxa]
          rw [mget_pyswap_fst hWF1 a cc hba1 hbc1]
          rw [mget_pyswap_other hWF a b cc hba hbb hbc (Ne.symm hac)
            (Ne.symm hbc2)]
        · rw [if_neg hxd]
          rw [mget_pyswap_other hWF2 a d x hba2 hbd2b hbx2 hxa hxd]
          rw [mget_pyswap_other hWF1 a cc x hba1 hbc1 hbx1 hxa hxc]
          rw [mget_pyswap_other hWF a b x hba hbb hbx hxa hxb]

theorem entries_quartetStep {m : List (List ℤ)} (hWF : WF m)
    (rot : List (ℤ × ℤ)) (s i : ℤ)
    (hba : inBounds m.length (rotGet rot i))
    (hbb : inBounds m.length (rotGet rot (i + s)))
    (hbc : inBounds m.length (rotGet rot (i + 2 * s)))
    (hbd : inBounds m.length (rotGet rot (i + 3 * s))) :
    entries (quartetStep rot s m i) = entries m := by
  unfold quartetStep
  have hWF1 : WF (pyswap m (rotGet rot i) (rotGet rot (i + s))) :=
    WF_pyswap hWF _ _
  have hlen1 : (pyswap m (rotGet rot i) (rotGet rot (i + s))).length =
      m.length := length_pyswap ..
  have hWF2 : WF (pyswap (pyswap m (rotGet rot i) (rotGet rot (i + s)))
      (rotGet rot i) (rotGet rot (i + 2 * s))) := WF_pyswap hWF1 _ _
  have hlen2 : (pyswap (pyswap m (rotGet rot i) (rotGet rot (i + s)))
      (rotGet rot i) (rotGet rot (i + 2 * s))).length = m.length := by
    rw [length_pyswap, hlen1]
  rw [entries_pyswap hWF2 _ _ (by rw [hlen2]; exact hba)
    (by rw [hlen2]; exact hbd)]
  rw [entries_pyswap hWF1 _ _ (by rw [hlen1]; exact hba)
    (by rw [hlen1]; exact hbc)]
  exact entries_pyswap hWF _ _ hba hbb

/-! ## Rotating one full cycle -/

/-- The source position of the entry that the rotation moves to `p`:
the clockwise rotation writes the entry of `(dim-1-p.2, p.1)` into `p`. -/
def rotSource (dim : ℕ) (p : ℤ × ℤ) : ℤ × ℤ := ((dim : ℤ) - 1 - p.2, p.1)

theorem minDist_rotSource (dim : ℕ) (p : ℤ × ℤ) :
    minDist dim (rotSource dim p) = minDist dim p := by
  obtain ⟨p1, p2⟩ := p
  unfold minDist rotSource
  dsimp only
  omega

theorem inBounds_rotSource (dim : ℕ) (p : ℤ × ℤ) (h : inBounds dim p) :
    inBounds dim (rotSource dim p) := by
  obtain ⟨p1, p2⟩ := p
  unfold inBounds at h ⊢
  unfold rotSource
  dsimp only at h ⊢
  omega

theorem rangeZ_natCast_succ (k : ℕ) :
    rangeZ 0 ((k : ℤ) + 1) = rangeZ 0 (k : ℤ) ++ [(k : ℤ)] := by
  unfold rangeZ
  have h1 : ((k : ℤ) + 1 - 0).toNat = k + 1 := by omega
  have h2 : ((k : ℤ) - 0).toNat = k := by omega
  rw [h1, h2, List.range_succ, List.map_append]
  simp

/-- The inner loop of `rotate_matrix`, truncated after `k` iterations,
leaves every cell outside the first `k` quartets of cycle `c` unchanged and
fills every cell of those quartets from its rotation source. -/
theorem cycle_fold (dim c : ℕ) (hc : c < dim / 2) (m : List (List ℤ))
    (hWF : WF m) (hlen : m.length = dim) (k : ℕ) (hk : k ≤ sN dim c) :
    WF ((rangeZ 0 (k : ℤ)).foldl
        (quartetStep (get_cycle c dim).1 ((sN dim c : ℕ) : ℤ)) m) ∧
    ((rangeZ 0 (k : ℤ)).foldl
        (quartetStep (get_cycle c dim).1 ((sN dim c : ℕ) : ℤ)) m).length = dim ∧
    entries ((rangeZ 0 (k : ℤ)).foldl
        (quartetStep (get_cycle c dim).1 ((sN dim c : ℕ) : ℤ)) m) = entries m ∧
    ∀ x : ℤ × ℤ, inBounds dim x →
      ((∃ i : ℤ, 0 ≤ i ∧ i < (k : ℤ) ∧ inQuartet dim c i x) →
        mget ((rangeZ 0 (k : ℤ)).foldl
          (quartetStep (get_cycle c dim).1 ((sN dim c : ℕ) : ℤ)) m) x =
          mget m (rotSource dim x)) ∧
      ((¬ ∃ i : ℤ, 0 ≤ i ∧ i < (k : ℤ) ∧ inQuartet dim c i x) →
        mget ((rangeZ 0 (k : ℤ)).foldl
          (quartetStep (get_cycle c dim).1 ((sN dim c : ℕ) : ℤ)) m) x =
          mget m x) := by
  induction k with
  | zero =>
    have hnil : rangeZ 0 ((0 : ℕ) : ℤ) = [] := rfl
    rw [hnil]
    refine ⟨hWF, hlen, rfl, fun x hx => ⟨?_, fun _ => rfl⟩⟩
    rintro ⟨i, h0i, hik, _⟩
    norm_num at hik
    omega
  | succ k ih =>
    obtain ⟨ihWF, ihlen, ihent, ihget⟩ := ih (by omega)
    have hksn : (k : ℤ) < (sN dim c : ℕ) := by
      have : k < sN dim c := by omega
      exact_mod_cast this
    have hsplit : rangeZ 0 ((k + 1 : ℕ) : ℤ) =
        rangeZ 0 (k : ℤ) ++ [(k : ℤ)] := by
      push_cast
      exact rangeZ_natCast_succ k
    rw [hsplit, List.foldl_append, List.foldl_cons, List.foldl_nil]
    have hlo := lo_nonneg dim c hc
    have hhi := hi_lt_dim dim c hc
    have hsl := hi_sub_lo dim c
    have hlh := lo_add_hi dim c
    have ha := quartet_a c dim (k : ℤ) (by omega) hksn
    have hb := quartet_b c dim (k : ℤ) (by omega) hksn
    have hcq := quartet_c c dim (k : ℤ) (by omega) hksn
    have hd := quartet_d c dim (k : ℤ) (by omega) hksn
    have hbA : inBounds dim (lo dim c, lo dim c + (k : ℤ)) := by
      unfold inBounds; dsimp only; omega
    have hbB : inBounds dim (lo dim c + (k : ℤ), hi dim c) := by
      unfold inBounds; dsimp only; omega
    have hbC : inBounds dim (hi dim c, hi dim c - (k : ℤ)) := by
      unfold inBounds; dsimp only; omega
    have hbD : inBounds dim (hi dim c - (k : ℤ), lo dim c) := by
      unfold inBounds; dsimp only; omega
    have hAB : (lo dim c, lo dim c + (k : ℤ)) ≠
        (lo dim c + (k : ℤ), hi dim c) := by
      simp only [Ne, Prod.mk.injEq]; omega
    have hAC : (lo dim c, lo dim c + (k : ℤ)) ≠
        (hi dim c, hi dim c - (k : ℤ)) := by
      simp only [Ne, Prod.mk.injEq]; omega
    have hAD : (lo dim c, lo dim c + (k : ℤ)) ≠
        (hi dim c - (k : ℤ), lo dim c) := by
      simp only [Ne, Prod.mk.injEq]; omega
    have hBC : (lo dim c + (k : ℤ), hi dim c) ≠
        (hi dim c, hi dim c - (k : ℤ)) := by
      simp only [Ne, Prod.mk.injEq]; omega
    have hBD : (lo dim c + (k : ℤ), hi dim c) ≠
        (hi dim c - (k : ℤ), lo dim c) := by
      simp only [Ne, Prod.mk.injEq]; omega
    have hCD : (hi dim c, hi dim c - (k : ℤ)) ≠
        (hi dim c - (k : ℤ), lo dim c) := by
      simp only [Ne, Prod.mk.injEq]; omega
    have hfresh : ∀ y : ℤ × ℤ, inBounds dim y → inQuartet dim c (k : ℤ) y →
        mget ((rangeZ 0 (k : ℤ)).foldl
          (quartetStep (get_cycle c dim).1 ((sN dim c : ℕ) : ℤ)) m) y =
          mget m y := by
      intro y hby hy
      refine (ihget y hby).2 ?_
      rintro ⟨i, h0i, hik, hqi⟩
      have := inQuartet_inj dim c i (k : ℤ) h0i (by omega) (by omega)
        (by omega) y hqi hy
      omega
    refine ⟨WF_quartetStep ihWF _ _ _, ?_, ?_, ?_⟩
    · rw [length_quartetStep]; exact ihlen
    · rw [entries_quartetStep ihWF _ _ _ (by rw [ihlen]; rw [ha]; exact hbA)
        (by rw [ihlen]; rw [hb]; exact hbB) (by rw [ihlen]; rw [hcq]; exact hbC)
        (by rw [ihlen]; rw [hd]; exact hbD)]
      exact ihent
    · intro x hx
      rw [mget_quartetStep ihWF _ _ (k : ℤ) _ _ _ _ ha hb hcq hd
        (by rw [ihlen]; exact hbA) (by rw [ihlen]; exact hbB)
        (by rw [ihlen]; exact hbC) (by rw [ihlen]; exact hbD)
        hAB hAC hAD hBC hBD hCD x (by rw [ihlen]; exact hx)]
      constructor
      · rintro ⟨i, h0i, hik1, hqi⟩
        by_cases hxa : x = (lo dim c, lo dim c + (k : ℤ))
        · rw [if_pos hxa]
          rw [hfresh _ hbD (Or.inr (Or.inr (Or.inr rfl)))]
          have : rotSource dim x = (hi dim c - (k : ℤ), lo dim c) := by
            rw [hxa]; unfold rotSource; dsimp only
            simp only [Prod.mk.injEq, and_true]; omega
          rw [this]
        · rw [if_neg hxa]
          by_cases hxb : x = (lo dim c + (k : ℤ), hi dim c)
          · rw [if_pos hxb]
            rw [hfresh _ hbA (Or.inl rfl)]
            have : rotSource dim x = (lo dim c, lo dim c + (k : ℤ)) := by
              rw [hxb]; unfold rotSource; dsimp only
              simp only [Prod.mk.injEq, and_true]; omega
            rw [this]
          · rw [if_neg hxb]
            by_cases hxc : x = (hi dim c, hi dim c - (k : ℤ))
            · rw [if_pos hxc]
              rw [hfresh _ hbB (Or.inr (Or.inl rfl))]
              have : rotSource dim x = (lo dim c + (k : ℤ), hi dim c) := by
                rw [hxc]; unfold rotSource; dsimp only
                simp only [Prod.mk.injEq, and_true]; omega
              rw [this]
            · rw [if_neg hxc]
              by_cases hxd : x = (hi dim c - (k : ℤ), lo dim c)
              · rw [if_pos hxd]
                rw [hfresh _ hbC (Or.inr (Or.inr (Or.inl rfl)))]
                have : rotSource dim x = (hi dim c, hi dim c - (k : ℤ)) := by
                  rw [hxd]; unfold rotSource; dsimp only
                  simp only [Prod.mk.injEq, and_true]; omega
                rw [this]
              · rw [if_neg hxd]
                have hnotk : ¬ inQuartet dim c (k : ℤ) x := by
                  unfold inQuartet
                  push_neg
                  exact ⟨hxa, hxb, hxc, hxd⟩
                have hik : i < (k : ℤ) := by
                  rcases eq_or_lt_of_le (show i ≤ (k : ℤ) by omega)
                    with he | hlt
                  · exact absurd (he ▸ hqi) hnotk
                  · omega
                exact (ihget x hx).1 ⟨i, h0i, hik, hqi⟩
      · intro hnone
        have hnotk : ¬ inQuartet dim c (k : ℤ) x := by
          intro hq
          exact hnone ⟨(k : ℤ), by omega, by omega, hq⟩
        unfold inQuartet at hnotk
        push_neg at hnotk
        obtain ⟨hxa, hxb, hxc, hxd⟩ := hnotk
        rw [if_neg hxa, if_neg hxb, if_neg hxc, if_neg hxd]
        refine (ihget x hx).2 ?_
        rintro ⟨i, h0i, hik, hqi⟩
        exact hnone ⟨i, h0i, by omega, hqi⟩

/-! ## The outer loop over all cycles -/

/-- One iteration of the outer loop of `rotate_matrix`: fetch cycle
`cycle` of a `dim`-dimensional matrix and rotate it. -/
def rotateCycle (dim : ℕ) (m : List (List ℤ)) (cycle : ℕ) : List (List ℤ) :=
  (rangeZ 0 (get_cycle cycle dim).2).foldl
    (quartetStep (get_cycle cycle dim).1 (get_cycle cycle dim).2) m

theorem rotate_matrix_eq (m : List (List ℤ)) :
    rotate_matrix m =
      (List.range (m.length / 2)).foldl (rotateCycle m.length) m := rfl

theorem rotateCycle_spec (dim c : ℕ) (hc : c < dim / 2) (m : List (List ℤ))
    (hWF : WF m) (hlen : m.length = dim) :
    WF (rotateCycle dim m c) ∧ (rotateCycle dim m c).length = dim ∧
    entries (rotateCycle dim m c) = entries m ∧
    ∀ x : ℤ × ℤ, inBounds dim x →
      (minDist dim x = lo dim c →
        mget (rotateCycle dim m c) x = mget m (rotSource dim x)) ∧
      (minDist dim x ≠ lo dim c → mget (rotateCycle dim m c) x = mget m x) := by
  obtain ⟨hWF2, hlen2, hent2, hget2⟩ :=
    cycle_fold dim c hc m hWF hlen (sN dim c) le_rfl
  have hrw : rotateCycle dim m c = (rangeZ 0 ((sN dim c : ℕ) : ℤ)).foldl
      (quartetStep (get_cycle c dim).1 ((sN dim c : ℕ) : ℤ)) m := by
    unfold rotateCycle
    rw [get_cycle_snd]
  rw [hrw]
  refine ⟨hWF2, hlen2, hent2, fun x hx => ⟨?_, ?_⟩⟩
  · intro hmd
    refine (hget2 x hx).1 ?_
    rw [← borderCell_iff_minDist] at hmd
    obtain ⟨i, h1, h2, h3⟩ := (exists_inQuartet_iff dim c x).mpr hmd
    exact ⟨i, h1, h2, h3⟩
  · intro hmd
    refine (hget2 x hx).2 ?_
    rintro ⟨i, h1, h2, h3⟩
    exact hmd ((borderCell_iff_minDist dim c x).mp
      ((exists_inQuartet_iff dim c x).mp ⟨i, h1, h2, h3⟩))

theorem minDist_nonneg (dim : ℕ) (x : ℤ × ℤ) (hx : inBounds dim x) :
    0 ≤ minDist dim x := by
  obtain ⟨x1, x2⟩ := x
  unfold inBounds at hx
  unfold minDist
  dsimp only at hx ⊢
  omega

/-- The outer loop of `rotate_matrix`, truncated after `K` cycles, fills
every cell whose distance from the edge is one of the processed cycles'
distances from its rotation source and leaves every other cell unchanged. -/
theorem cycles_fold (dim : ℕ) (m : List (List ℤ)) (hWF : WF m)
    (hlen : m.length = dim) (K : ℕ) (hK : K ≤ dim / 2) :
    WF ((List.range K).foldl (rotateCycle dim) m) ∧
    ((List.range K).foldl (rotateCycle dim) m).length = dim ∧
    entries ((List.range K).foldl (rotateCycle dim) m) = entries m ∧
    ∀ x : ℤ × ℤ, inBounds dim x →
      (((dim / 2 : ℕ) : ℤ) - K ≤ minDist dim x ∧
          minDist dim x < ((dim / 2 : ℕ) : ℤ) →
        mget ((List.range K).foldl (rotateCycle dim) m) x =
          mget m (rotSource dim x)) ∧
      (¬(((dim / 2 : ℕ) : ℤ) - K ≤ minDist dim x ∧
          minDist dim x < ((dim / 2 : ℕ) : ℤ)) →
        mget ((List.range K).foldl (rotateCycle dim) m) x = mget m x) := by
  induction K with
  | zero =>
    rw [List.range_zero, List.foldl_nil]
    refine ⟨hWF, hlen, rfl, fun x hx => ⟨?_, fun _ => rfl⟩⟩
    rintro ⟨h1, h2⟩
    norm_num at h1
    omega
  | succ K ih =>
    obtain ⟨ihWF, ihlen, ihent, ihget⟩ := ih (by omega)
    have hcK : K < dim / 2 := by omega
    rw [List.range_succ, List.foldl_append, List.foldl_cons, List.foldl_nil]
    obtain ⟨sWF, slen, sent, sget⟩ :=
      rotateCycle_spec dim K hcK _ ihWF ihlen
    have hloK : lo dim K = ((dim / 2 : ℕ) : ℤ) - K - 1 := rfl
    refine ⟨sWF, slen, sent.trans ihent, fun x hx => ⟨?_, ?_⟩⟩
    · intro hcond
      by_cases hmd : minDist dim x = lo dim K
      · rw [(sget x hx).1 hmd]
        have hbs : inBounds dim (rotSource dim x) := inBounds_rotSource dim x hx
        refine (ihget _ hbs).2 ?_
        rw [minDist_rotSource, hmd, hloK]
        rintro ⟨h1, h2⟩
        omega
      · rw [(sget x hx).2 hmd]
        refine (ihget x hx).1 ?_
        rw [hloK] at hmd
        push_cast at hcond hmd ⊢
        omega
    · intro hcond
      by_cases hmd : minDist dim x = lo dim K
      · exfalso
        apply hcond
        rw [hmd, hloK]
        push_cast
        constructor <;> omega
      · rw [(sget x hx).2 hmd]
        refine (ihget x hx).2 ?_
        rintro ⟨h1, h2⟩
        apply hcond
        push_cast at h1 h2 ⊢
        constructor <;> omega

/-! ## The rotation, entrywise -/

theorem rotate_matrix_WF {m : List (List ℤ)} (hWF : WF m) :
    WF (rotate_matrix m) := by
  rw [rotate_matrix_eq]
  exact (cycles_fold m.length m hWF rfl (m.length / 2) le_rfl).1

theorem rotate_matrix_length {m : List (List ℤ)} (hWF : WF m) :
    (rotate_matrix m).length = m.length := by
  rw [rotate_matrix_eq]
  exact (cycles_fold m.length m hWF rfl (m.length / 2) le_rfl).2.1

theorem rotate_matrix_entries {m : List (List ℤ)} (hWF : WF m) :
    entries (rotate_matrix m) = entries m := by
  rw [rotate_matrix_eq]
  exact (cycles_fold m.length m hWF rfl (m.length / 2) le_rfl).2.2.1

/-- Central fixed point: a cell at distance at least `dim/2` from every edge
(the single center cell of an odd-dimensional matrix) is its own rotation
source. -/
theorem rotSource_center (dim : ℕ) (x : ℤ × ℤ) (hx : inBounds dim x)
    (hmd : ¬minDist dim x < ((dim / 2 : ℕ) : ℤ)) : rotSource dim x = x := by
  obtain ⟨x1, x2⟩ := x
  unfold inBounds at hx
  unfold minDist at hmd
  unfold rotSource
  dsimp only at hx hmd ⊢
  simp only [Prod.mk.injEq]
  omega

/-- `rotate_matrix` rotates clockwise: the entry at `x` of the result is the
entry of the input at the rotation source of `x`. -/
theorem rotate_matrix_mget {m : List (List ℤ)} (hWF : WF m) (x : ℤ × ℤ)
    (hx : inBounds m.length x) :
    mget (rotate_matrix m) x = mget m (rotSource m.length x) := by
  rw [rotate_matrix_eq]
  obtain ⟨_, _, _, hget⟩ := cycles_fold m.length m hWF rfl (m.length / 2) le_rfl
  by_cases hmd : minDist m.length x < ((m.length / 2 : ℕ) : ℤ)
  · exact (hget x hx).1 ⟨by have := minDist_nonneg m.length x hx; omega, hmd⟩
  · rw [(hget x hx).2 (by omega), rotSource_center m.length x hx hmd]

/-! ## List-level consequences -/

theorem mget_natCast (m : List (List ℤ)) (r c2 : ℕ) :
    mget m ((r : ℤ), (c2 : ℤ)) = (m.getD r []).getD c2 0 := by
  rw [mget_nonneg m ((r : ℤ), (c2 : ℤ)) (Int.natCast_nonneg r)
    (Int.natCast_nonneg c2)]
  norm_num

theorem matrix_ext {m1 m2 : List (List ℤ)} (hlen : m1.length = m2.length)
    (hWF1 : WF m1) (hWF2 : WF m2)
    (h : ∀ r c2 : ℕ, r < m2.length → c2 < m2.length →
      mget m1 ((r : ℤ), (c2 : ℤ)) = mget m2 ((r : ℤ), (c2 : ℤ))) :
    m1 = m2 := by
  apply List.ext_getElem hlen
  intro r h1 h2
  have hr1 : m1[r].length = m1.length := hWF1 _ (List.getElem_mem _)
  have hr2 : m2[r].length = m2.length := hWF2 _ (List.getElem_mem _)
  apply List.ext_getElem (by omega)
  intro c2 hc1 hc2b
  have e1 : mget m1 ((r : ℤ), (c2 : ℤ)) = m1[r][c2] := by
    rw [mget_natCast, List.getD_eq_getElem _ _ h1,
      List.getD_eq_getElem _ _ hc1]
  have e2 : mget m2 ((r : ℤ), (c2 : ℤ)) = m2[r][c2] := by
    rw [mget_natCast, List.getD_eq_getElem _ _ h2,
      List.getD_eq_getElem _ _ hc2b]
  rw [← e1, ← e2]
  exact h r c2 (by omega) (by omega)

theorem clockwiseRotation_length (m : List (List ℤ)) :
    (clockwiseRotation m).length = m.length := by
  unfold clockwiseRotation
  rw [List.length_map, List.length_range]

theorem clockwiseRotation_WF (m : List (List ℤ)) : WF (clockwiseRotation m) := by
  intro row hrow
  rw [clockwiseRotation_length]
  unfold clockwiseRotation at hrow
  obtain ⟨i, _, rfl⟩ := List.mem_map.mp hrow
  rw [List.length_map, List.length_range]

theorem clockwiseRotation_mget (m : List (List ℤ)) (r c2 : ℕ)
    (hr : r < m.length) (hc2 : c2 < m.length) :
    mget (clockwiseRotation m) ((r : ℤ), (c2 : ℤ)) =
      mget m ((m.length : ℤ) - 1 - (c2 : ℤ), (r : ℤ)) := by
  rw [mget_natCast]
  have hrow : (clockwiseRotation m).getD r [] =
      (List.range m.length).map
        (fun j : ℕ => mget m ((m.length : ℤ) - 1 - (j : ℤ), (r : ℤ))) := by
    unfold clockwiseRotation
    rw [List.getD_eq_getElem _ _
      (by rw [List.length_map, List.length_range]; exact hr)]
    simp only [List.getElem_map, List.getElem_range]
  rw [hrow]
  rw [List.getD_eq_getElem _ _
    (by rw [List.length_map, List.length_range]; exact hc2)]
  simp only [List.getElem_map, List.getElem_range]

theorem inBounds_natCast (n r c2 : ℕ) (hr : r < n) (hc2 : c2 < n) :
    inBounds n ((r : ℤ), (c2 : ℤ)) := by
  unfold inBounds
  dsimp only
  omega

theorem rotate_matrix_eq_clockwiseRotation {m : List (List ℤ)} (hWF : WF m) :
    rotate_matrix m = clockwiseRotation m := by
  apply matrix_ext (by rw [rotate_matrix_length hWF, clockwiseRotation_length])
    (rotate_matrix_WF hWF) (clockwiseRotation_WF m)
  intro r c2 hr hc2
  rw [clockwiseRotation_length] at hr hc2
  rw [clockwiseRotation_mget m r c2 hr hc2]
  rw [rotate_matrix_mget hWF _ (inBounds_natCast m.length r c2 hr hc2)]
  rfl

theorem rotSource_four (dim : ℕ) (x : ℤ × ℤ) :
    rotSource dim (rotSource dim (rotSource dim (rotSource dim x))) = x := by
  obtain ⟨x1, x2⟩ := x
  unfold rotSource
  dsimp only
  simp only [Prod.mk.injEq]
  constructor <;> ring

theorem rotate_four_mget {m : List (List ℤ)} (hWF : WF m) (x : ℤ × ℤ)
    (hx : inBounds m.length x) :
    mget (rotate_matrix (rotate_matrix (rotate_matrix (rotate_matrix m)))) x =
      mget m x := by
  have hWF1 := rotate_matrix_WF hWF
  have hl1 := rotate_matrix_length hWF
  have hWF2 := rotate_matrix_WF hWF1
  have hl2 := (rotate_matrix_length hWF1).trans hl1
  have hWF3 := rotate_matrix_WF hWF2
  have hl3 := (rotate_matrix_length hWF2).trans hl2
  have hx3 : inBounds (rotate_matrix (rotate_matrix (rotate_matrix m))).length
      x := by rw [hl3]; exact hx
  rw [rotate_matrix_mget hWF3 x hx3, hl3]
  have hx2 : inBounds (rotate_matrix (rotate_matrix m)).length
      (rotSource m.length x) := by
    rw [hl2]; exact inBounds_rotSource _ _ hx
  rw [rotate_matrix_mget hWF2 _ hx2, hl2]
  have hx1 : inBounds (rotate_matrix m).length
      (rotSource m.length (rotSource m.length x)) := by
    rw [hl1]; exact inBounds_rotSource _ _ (inBounds_rotSource _ _ hx)
  rw [rotate_matrix_mget hWF1 _ hx1, hl1]
  have hx0 : inBounds m.length
      (rotSource m.length (rotSource m.length (rotSource m.length x))) :=
    inBounds_rotSource _ _ (inBounds_rotSource _ _ (inBounds_rotSource _ _ hx))
  rw [rotate_matrix_mget hWF _ hx0, rotSource_four]

theorem get_cycle_mem_inBounds (D c : ℕ) (hc : c < D / 2) :
    ∀ p ∈ (get_cycle c D).1, inBounds D p := by
  intro p hp
  rw [mem_get_cycle] at hp
  obtain ⟨h1, h2, h3, h4, _⟩ := hp
  have hlo := lo_nonneg D c hc
  have hhi := hi_lt_dim D c hc
  obtain ⟨p1, p2⟩ := p
  unfold inBounds
  dsimp only at h1 h2 h3 h4 ⊢
  omega

/-! ## The claims -/

/-- C1: for every D ≥ 0 and every D-by-D matrix M, `rotate_matrix M` is the
90-degree clockwise rotation of M: the entry of the result at row `i`,
column `j` is M's entry at row `D-1-j`, column `i` (in particular
`[[1,2,3],[4,5,6],[7,8,9]]` rotates to `[[7,4,1],[8,5,2],[9,6,3]]` and
`[[1,2],[3,4]]` to `[[3,1],[4,2]]`; the witness checks both). -/
theorem C1_rotate_matrix_clockwise (m : List (List ℤ)) (hWF : WF m)
    (i j : ℕ) (hi : i < m.length) (hj : j < m.length) :
    mget (rotate_matrix m) ((i : ℤ), (j : ℤ)) =
      mget m ((m.length : ℤ) - 1 - (j : ℤ), (i : ℤ)) := by
  rw [rotate_matrix_mget hWF _ (inBounds_natCast m.length i j hi hj)]
  rfl

theorem C1_witness :
    WF [[(1:ℤ),2,3],[4,5,6],[7,8,9]] ∧
    (0:ℕ) < [[(1:ℤ),2,3],[4,5,6],[7,8,9]].length ∧
    (1:ℕ) < [[(1:ℤ),2,3],[4,5,6],[7,8,9]].length ∧
    mget (rotate_matrix [[(1:ℤ),2,3],[4,5,6],[7,8,9]])
        (((0:ℕ) : ℤ), ((1:ℕ) : ℤ)) =
      mget [[(1:ℤ),2,3],[4,5,6],[7,8,9]]
        (([[(1:ℤ),2,3],[4,5,6],[7,8,9]].length : ℤ) - 1 - ((1:ℕ) : ℤ),
          ((0:ℕ) : ℤ)) ∧
    rotate_matrix [[(1:ℤ),2,3],[4,5,6],[7,8,9]] = [[7,4,1],[8,5,2],[9,6,3]] ∧
    rotate_matrix [[(1:ℤ),2],[3,4]] = [[3,1],[4,2]] :=
  ⟨by decide, by decide, by decide,
    C1_rotate_matrix_clockwise [[(1:ℤ),2,3],[4,5,6],[7,8,9]] (by decide) 0 1
      (by decide) (by decide),
    by decide, by decide⟩

/-- C2: applying `rotate_matrix` four times to any D-by-D matrix gives back
the original matrix. -/
theorem C2_four_rotations_identity (m : List (List ℤ)) (hWF : WF m) :
    rotate_matrix (rotate_matrix (rotate_matrix (rotate_matrix m))) = m := by
  have hWF1 := rotate_matrix_WF hWF
  have hl1 := rotate_matrix_length hWF
  have hWF2 := rotate_matrix_WF hWF1
  have hl2 := (rotate_matrix_length hWF1).trans hl1
  have hWF3 := rotate_matrix_WF hWF2
  have hl3 := (rotate_matrix_length hWF2).trans hl2
  have hWF4 := rotate_matrix_WF hWF3
  have hl4 := (rotate_matrix_length hWF3).trans hl3
  apply matrix_ext hl4 hWF4 hWF
  intro r c2 hr hc2
  exact rotate_four_mget hWF _ (inBounds_natCast m.length r c2 hr hc2)

theorem C2_witness :
    WF [[(1:ℤ),2],[3,4]] ∧
    rotate_matrix (rotate_matrix (rotate_matrix (rotate_matrix
      [[(1:ℤ),2],[3,4]]))) = [[(1:ℤ),2],[3,4]] :=
  ⟨by decide, C2_four_rotations_identity [[(1:ℤ),2],[3,4]] (by decide)⟩

/-- C3: for every D ≥ 0 and `cycle < D/2`, the list returned by `get_cycle`
has length exactly `4*size`, its coordinates are pairwise distinct and in
bounds, lists of distinct cycles are disjoint, and the union over all
cycles covers every cell except, for odd D, the center. -/
theorem C3_ring_decomposition (D c : ℕ) (hc : c < D / 2) :
    ((get_cycle c D).1.length : ℤ) = 4 * (get_cycle c D).2 ∧
    (get_cycle c D).1.Nodup ∧
    (∀ p ∈ (get_cycle c D).1, inBounds D p) ∧
    (∀ c2 : ℕ, c2 < D / 2 → c2 ≠ c →
      ∀ p ∈ (get_cycle c D).1, p ∉ (get_cycle c2 D).1) ∧
    (∀ p : ℤ × ℤ, inBounds D p →
      ((∃ c2 : ℕ, c2 < D / 2 ∧ p ∈ (get_cycle c2 D).1) ↔
        ¬(D % 2 = 1 ∧ p.1 = ((D / 2 : ℕ) : ℤ) ∧ p.2 = ((D / 2 : ℕ) : ℤ)))) := by
  refine ⟨?_, get_cycle_nodup c D, get_cycle_mem_inBounds D c hc, ?_, ?_⟩
  · rw [get_cycle_length, get_cycle_snd]
    push_cast
    ring
  · intro c2 hc2 hne p hp hp2
    rw [mem_get_cycle, borderCell_iff_minDist] at hp hp2
    have : lo D c = lo D c2 := hp ▸ hp2
    unfold lo at this
    omega
  · intro p hp
    constructor
    · rintro ⟨c2, hc2, hmem⟩
      rw [mem_get_cycle, borderCell_iff_minDist] at hmem
      rintro ⟨hodd, he1, he2⟩
      obtain ⟨p1, p2⟩ := p
      dsimp only at he1 he2
      subst he1; subst he2
      unfold minDist lo at hmem
      dsimp only at hmem
      omega
    · intro hnc
      have hd0 := minDist_nonneg D p hp
      have hd2 : minDist D p < ((D / 2 : ℕ) : ℤ) := by
        obtain ⟨p1, p2⟩ := p
        unfold inBounds at hp
        unfold minDist at hd0 ⊢
        dsimp only at hp hd0 hnc ⊢
        omega
      refine ⟨(((D / 2 : ℕ) : ℤ) - 1 - minDist D p).toNat, by omega, ?_⟩
      rw [mem_get_cycle, borderCell_iff_minDist]
      unfold lo
      omega

theorem C3_witness : (0:ℕ) < 3 / 2 ∧
    (((get_cycle 0 3).1.length : ℤ) = 4 * (get_cycle 0 3).2 ∧
    (get_cycle 0 3).1.Nodup ∧
    (∀ p ∈ (get_cycle 0 3).1, inBounds 3 p) ∧
    (∀ c2 : ℕ, c2 < 3 / 2 → c2 ≠ 0 →
      ∀ p ∈ (get_cycle 0 3).1, p ∉ (get_cycle c2 3).1) ∧
    (∀ p : ℤ × ℤ, inBounds 3 p →
      ((∃ c2 : ℕ, c2 < 3 / 2 ∧ p ∈ (get_cycle c2 3).1) ↔
        ¬(3 % 2 = 1 ∧ p.1 = ((3 / 2 : ℕ) : ℤ) ∧ p.2 = ((3 / 2 : ℕ) : ℤ))))) :=
  ⟨by decide, C3_ring_decomposition 3 0 (by decide)⟩

/-- C4, counterexample: the claim says `get_cycle(0, D)` returns size
`D - 2*0 - 1`; at `D = 4` the code returns size 1 (the innermost ring),
not 3. -/
theorem C4_cex : (get_cycle 0 4).2 ≠ (4 : ℤ) - 2 * 0 - 1 := by decide

/-- C4 (amended): `get_cycle(c, D)` describes the `(D/2 - 1 - c)`-th square
border counting inward from the outer edge — the code counts cycles from
the middle outward — and its returned size equals `D - 2*(D/2 - 1 - c) - 1`;
in particular `get_cycle(D/2 - 1, D)` (the last cycle processed) traces the
outermost border and returns size `D - 1`. -/
theorem C4_ring_counts_from_center (D c : ℕ) (hc : c < D / 2) :
    (get_cycle c D).2 = (D : ℤ) - 2 * ((D / 2 - 1 - c : ℕ) : ℤ) - 1 ∧
    (∀ p : ℤ × ℤ, p ∈ (get_cycle c D).1 ↔
      (((D / 2 - 1 - c : ℕ) : ℤ) ≤ p.1 ∧
        p.1 ≤ (D : ℤ) - 1 - ((D / 2 - 1 - c : ℕ) : ℤ) ∧
        ((D / 2 - 1 - c : ℕ) : ℤ) ≤ p.2 ∧
        p.2 ≤ (D : ℤ) - 1 - ((D / 2 - 1 - c : ℕ) : ℤ) ∧
        (p.1 = ((D / 2 - 1 - c : ℕ) : ℤ) ∨
          p.1 = (D : ℤ) - 1 - ((D / 2 - 1 - c : ℕ) : ℤ) ∨
          p.2 = ((D / 2 - 1 - c : ℕ) : ℤ) ∨
          p.2 = (D : ℤ) - 1 - ((D / 2 - 1 - c : ℕ) : ℤ)))) ∧
    (1 ≤ D / 2 → (get_cycle (D / 2 - 1) D).2 = (D : ℤ) - 1) := by
  refine ⟨?_, ?_, ?_⟩
  · rw [get_cycle_snd]
    unfold sN
    omega
  · intro p
    obtain ⟨p1, p2⟩ := p
    rw [mem_get_cycle]
    unfold borderCell
    have e1 : ((D / 2 - 1 - c : ℕ) : ℤ) = lo D c := by unfold lo; omega
    have e2 := lo_add_hi D c
    dsimp only
    rw [e1]
    constructor
    · rintro ⟨h1, h2, h3, h4, h5⟩
      refine ⟨h1, by omega, h3, by omega, by omega⟩
    · rintro ⟨h1, h2, h3, h4, h5⟩
      refine ⟨h1, by omega, h3, by omega, by omega⟩
  · intro hD
    rw [get_cycle_snd]
    unfold sN
    omega

theorem C4_witness : (0:ℕ) < 4 / 2 ∧
    ((get_cycle 0 4).2 = (4 : ℤ) - 2 * ((4 / 2 - 1 - 0 : ℕ) : ℤ) - 1 ∧
    (∀ p : ℤ × ℤ, p ∈ (get_cycle 0 4).1 ↔
      (((4 / 2 - 1 - 0 : ℕ) : ℤ) ≤ p.1 ∧
        p.1 ≤ (4 : ℤ) - 1 - ((4 / 2 - 1 - 0 : ℕ) : ℤ) ∧
        ((4 / 2 - 1 - 0 : ℕ) : ℤ) ≤ p.2 ∧
        p.2 ≤ (4 : ℤ) - 1 - ((4 / 2 - 1 - 0 : ℕ) : ℤ) ∧
        (p.1 = ((4 / 2 - 1 - 0 : ℕ) : ℤ) ∨
          p.1 = (4 : ℤ) - 1 - ((4 / 2 - 1 - 0 : ℕ) : ℤ) ∨
          p.2 = ((4 / 2 - 1 - 0 : ℕ) : ℤ) ∨
          p.2 = (4 : ℤ) - 1 - ((4 / 2 - 1 - 0 : ℕ) : ℤ)))) ∧
    (1 ≤ 4 / 2 → (get_cycle (4 / 2 - 1) 4).2 = (4 : ℤ) - 1)) :=
  ⟨by decide, C4_ring_counts_from_center 4 0 (by decide)⟩

/-- C5, counterexample: the claim says the top edge of `get_cycle(c, D)` runs
from column `half-c-1` to column `half+parityBump` and that the returned
size is the length of that edge minus one; at `c = 1`, `D = 4` (so
`half = 2`, `parityBump = 0`) that edge would be `(0,0), (0,1), (0,2)` and
the size would be 2, but `get_cycle 1 4` returns size 3 (its top edge
extends to column `half+c+parityBump = 3`). -/
theorem C5_cex : ¬((get_cycle 1 4).1.take 3 =
      (rangeZ ((2:ℤ) - 1 - 1) ((2:ℤ) + 0 + 1)).map (fun j => ((2:ℤ) - 1 - 1, j)) ∧
    (get_cycle 1 4).2 = ((2:ℤ) + 0) - ((2:ℤ) - 1 - 1) + 1 - 1) := by decide

/-- C5 (amended): for `c < D/2`, with `half = D/2` and `parityBump = D % 2`,
the coordinate list of `get_cycle(c, D)` begins with the top edge — the
pairs `(half-c-1, j)` for `j` from `half-c-1` to `half + c + parityBump`
inclusive (the claim's end column `half+parityBump` is short by `c`) — and
the returned size equals the length of that top edge minus one. -/
theorem C5_top_edge (D c : ℕ) (hc : c < D / 2) :
    (get_cycle c D).1.take
        ((((D / 2 : ℕ) : ℤ) + c + (D % 2 : ℕ) + 1 -
          (((D / 2 : ℕ) : ℤ) - c - 1)).toNat) =
      (rangeZ (((D / 2 : ℕ) : ℤ) - c - 1)
          (((D / 2 : ℕ) : ℤ) + c + (D % 2 : ℕ) + 1)).map
        (fun j => (((D / 2 : ℕ) : ℤ) - c - 1, j)) ∧
    (get_cycle c D).2 =
      (((D / 2 : ℕ) : ℤ) + c + (D % 2 : ℕ) - (((D / 2 : ℕ) : ℤ) - c - 1) + 1)
        - 1 := by
  constructor
  · have hlen : ((((D / 2 : ℕ) : ℤ) + c + (D % 2 : ℕ) + 1 -
        (((D / 2 : ℕ) : ℤ) - c - 1)).toNat) = (topSeg D c).length := by
      rw [topSeg_length]
      unfold sN
      omega
    have htop : topSeg D c =
        (rangeZ (((D / 2 : ℕ) : ℤ) - c - 1)
            (((D / 2 : ℕ) : ℤ) + c + (D % 2 : ℕ) + 1)).map
          (fun j => (((D / 2 : ℕ) : ℤ) - c - 1, j)) := by
      unfold topSeg lo
      have e : hi D c + 1 = ((D / 2 : ℕ) : ℤ) + c + (D % 2 : ℕ) + 1 := by
        unfold hi
        rw [odd_cast]
        ring
      rw [e]
    rw [hlen, get_cycle_fst, List.append_assoc, List.append_assoc,
      List.take_left, htop]
  · rw [get_cycle_snd]
    unfold sN
    omega

theorem C5_witness : (1:ℕ) < 4 / 2 ∧
    ((get_cycle 1 4).1.take
        ((((4 / 2 : ℕ) : ℤ) + 1 + (4 % 2 : ℕ) + 1 -
          (((4 / 2 : ℕ) : ℤ) - 1 - 1)).toNat) =
      (rangeZ (((4 / 2 : ℕ) : ℤ) - 1 - 1)
          (((4 / 2 : ℕ) : ℤ) + 1 + (4 % 2 : ℕ) + 1)).map
        (fun j => (((4 / 2 : ℕ) : ℤ) - 1 - 1, j)) ∧
    (get_cycle 1 4).2 =
      (((4 / 2 : ℕ) : ℤ) + 1 + (4 % 2 : ℕ) - (((4 / 2 : ℕ) : ℤ) - 1 - 1) + 1)
        - 1) :=
  ⟨by decide, C5_top_edge 4 1 (by decide)⟩

/-- C6: for a cycle of a D-by-D matrix with coordinate list `rot` and size
`size`, and `i` in `[0, size)`, with `a = rot[i]`, `b = rot[i+size]`,
`c = rot[i+2*size]`, `d = rot[i+3*size]`, one iteration of the inner loop
(three exchanges through the single scratch variable `tmp`, writing `a`'s
slot last) sets `new[b] = old[a]`, `new[c] = old[b]`, `new[d] = old[c]` and
`new[a] = old[d]`; the witness checks that a quartet holding `(1,2,3,4)`
afterwards holds `(4,1,2,3)`. -/
theorem C6_quartet_rotation (D c : ℕ) (hc : c < D / 2) (m : List (List ℤ))
    (hWF : WF m) (hlen : m.length = D) (i : ℤ) (h0 : 0 ≤ i)
    (hisz : i < (get_cycle c D).2) :
    mget (quartetStep (get_cycle c D).1 (get_cycle c D).2 m i)
        (rotGet (get_cycle c D).1 (i + (get_cycle c D).2)) =
      mget m (rotGet (get_cycle c D).1 i) ∧
    mget (quartetStep (get_cycle c D).1 (get_cycle c D).2 m i)
        (rotGet (get_cycle c D).1 (i + 2 * (get_cycle c D).2)) =
      mget m (rotGet (get_cycle c D).1 (i + (get_cycle c D).2)) ∧
    mget (quartetStep (get_cycle c D).1 (get_cycle c D).2 m i)
        (rotGet (get_cycle c D).1 (i + 3 * (get_cycle c D).2)) =
      mget m (rotGet (get_cycle c D).1 (i + 2 * (get_cycle c D).2)) ∧
    mget (quartetStep (get_cycle c D).1 (get_cycle c D).2 m i)
        (rotGet (get_cycle c D).1 i) =
      mget m (rotGet (get_cycle c D).1 (i + 3 * (get_cycle c D).2)) := by
  rw [get_cycle_snd] at hisz ⊢
  rw [quartet_a c D i h0 hisz, quartet_b c D i h0 hisz,
    quartet_c c D i h0 hisz, quartet_d c D i h0 hisz]
  have hlo := lo_nonneg D c hc
  have hhi := hi_lt_dim D c hc
  have hsl := hi_sub_lo D c
  have hbA : inBounds D (lo D c, lo D c + i) := by
    unfold inBounds; dsimp only; omega
  have hbB : inBounds D (lo D c + i, hi D c) := by
    unfold inBounds; dsimp only; omega
  have hbC : inBounds D (hi D c, hi D c - i) := by
    unfold inBounds; dsimp only; omega
  have hbD : inBounds D (hi D c - i, lo D c) := by
    unfold inBounds; dsimp only; omega
  have hAB : (lo D c, lo D c + i) ≠ (lo D c + i, hi D c) := by
    simp only [Ne, Prod.mk.injEq]; omega
  have hAC : (lo D c, lo D c + i) ≠ (hi D c, hi D c - i) := by
    simp only [Ne, Prod.mk.injEq]; omega
  have hAD : (lo D c, lo D c + i) ≠ (hi D c - i, lo D c) := by
    simp only [Ne, Prod.mk.injEq]; omega
  have hBC : (lo D c + i, hi D c) ≠ (hi D c, hi D c - i) := by
    simp only [Ne, Prod.mk.injEq]; omega
  have hBD : (lo D c + i, hi D c) ≠ (hi D c - i, lo D c) := by
    simp only [Ne, Prod.mk.injEq]; omega
  have hCD : (hi D c, hi D c - i) ≠ (hi D c - i, lo D c) := by
    simp only [Ne, Prod.mk.injEq]; omega
  have hq := quartet_a c D i h0 hisz
  have hqb := quartet_b c D i h0 hisz
  have hqc := quartet_c c D i h0 hisz
  have hqd := quartet_d c D i h0 hisz
  refine ⟨?_, ?_, ?_, ?_⟩
  · rw [mget_quartetStep hWF _ _ i _ _ _ _ hq hqb hqc hqd
      (by rw [hlen]; exact hbA) (by rw [hlen]; exact hbB)
      (by rw [hlen]; exact hbC) (by rw [hlen]; exact hbD)
      hAB hAC hAD hBC hBD hCD _ (by rw [hlen]; exact hbB)]
    rw [if_neg (Ne.symm hAB), if_pos rfl]
  · rw [mget_quartetStep hWF _ _ i _ _ _ _ hq hqb hqc hqd
      (by rw [hlen]; exact hbA) (by rw [hlen]; exact hbB)
      (by rw [hlen]; exact hbC) (by rw [hlen]; exact hbD)
      hAB hAC hAD hBC hBD hCD _ (by rw [hlen]; exact hbC)]
    rw [if_neg (Ne.symm hAC), if_neg (Ne.symm hBC), if_pos rfl]
  · rw [mget_quartetStep hWF _ _ i _ _ _ _ hq hqb hqc hqd
      (by rw [hlen]; exact hbA) (by rw [hlen]; exact hbB)
      (by rw [hlen]; exact hbC) (by rw [hlen]; exact hbD)
      hAB hAC hAD hBC hBD hCD _ (by rw [hlen]; exact hbD)]
    rw [if_neg (Ne.symm hAD), if_neg (Ne.symm hBD), if_neg (Ne.symm hCD),
      if_pos rfl]
  · rw [mget_quartetStep hWF _ _ i _ _ _ _ hq hqb hqc hqd
      (by rw [hlen]; exact hbA) (by rw [hlen]; exact hbB)
      (by rw [hlen]; exact hbC) (by rw [hlen]; exact hbD)
      hAB hAC hAD hBC hBD hCD _ (by rw [hlen]; exact hbA)]
    rw [if_pos rfl]

theorem C6_witness : (0:ℕ) < 2 / 2 ∧ WF [[(1:ℤ),2],[4,3]] ∧
    [[(1:ℤ),2],[4,3]].length = 2 ∧ (0:ℤ) ≤ 0 ∧ (0:ℤ) < (get_cycle 0 2).2 ∧
    (mget (quartetStep (get_cycle 0 2).1 (get_cycle 0 2).2 [[(1:ℤ),2],[4,3]] 0)
        (rotGet (get_cycle 0 2).1 (0 + (get_cycle 0 2).2)) =
      mget [[(1:ℤ),2],[4,3]] (rotGet (get_cycle 0 2).1 0) ∧
    mget (quartetStep (get_cycle 0 2).1 (get_cycle 0 2).2 [[(1:ℤ),2],[4,3]] 0)
        (rotGet (get_cycle 0 2).1 (0 + 2 * (get_cycle 0 2).2)) =
      mget [[(1:ℤ),2],[4,3]] (rotGet (get_cycle 0 2).1 (0 + (get_cycle 0 2).2)) ∧
    mget (quartetStep (get_cycle 0 2).1 (get_cycle 0 2).2 [[(1:ℤ),2],[4,3]] 0)
        (rotGet (get_cycle 0 2).1 (0 + 3 * (get_cycle 0 2).2)) =
      mget [[(1:ℤ),2],[4,3]]
        (rotGet (get_cycle 0 2).1 (0 + 2 * (get_cycle 0 2).2)) ∧
    mget (quartetStep (get_cycle 0 2).1 (get_cycle 0 2).2 [[(1:ℤ),2],[4,3]] 0)
        (rotGet (get_cycle 0 2).1 0) =
      mget [[(1:ℤ),2],[4,3]]
        (rotGet (get_cycle 0 2).1 (0 + 3 * (get_cycle 0 2).2))) ∧
    quartetStep (get_cycle 0 2).1 (get_cycle 0 2).2 [[(1:ℤ),2],[4,3]] 0 =
      [[4,1],[3,2]] :=
  ⟨by decide, by decide, by decide, by decide, by decide,
    C6_quartet_rotation 2 0 (by decide) [[(1:ℤ),2],[4,3]] (by decide)
      (by decide) 0 (by decide) (by decide),
    by decide⟩

/-- C7, counterexample: the claim says `rotate_matrix` is the 90-degree
counter-clockwise rotation (result entry at `(i, j)` equals the input entry
at `(j, D-1-i)`); for `[[1,2],[3,4]]` at `(0, 0)` the code produces 3
(clockwise) while the counter-clockwise formula demands 2. -/
theorem C7_cex : ¬(mget (rotate_matrix [[(1:ℤ),2],[3,4]]) (0, 0) =
    mget [[(1:ℤ),2],[3,4]] (0, ([[(1:ℤ),2],[3,4]].length : ℤ) - 1 - 0)) := by
  decide

/-- C7 (amended): the source rotates clockwise, not counter-clockwise:
`rotate_matrix` equals the clockwise rotation written from the spec (entry
at row `i`, column `j` of the result is the input's entry at row `D-1-j`,
column `i`). -/
theorem C7_rotates_clockwise (m : List (List ℤ)) (hWF : WF m) :
    rotate_matrix m = clockwiseRotation m :=
  rotate_matrix_eq_clockwiseRotation hWF

theorem C7_witness : WF [[(1:ℤ),2],[3,4]] ∧
    rotate_matrix [[(1:ℤ),2],[3,4]] = clockwiseRotation [[(1:ℤ),2],[3,4]] :=
  ⟨by decide, C7_rotates_clockwise [[(1:ℤ),2],[3,4]] (by decide)⟩

/-- C8: for D = 0 and D = 1 the matrix is returned unchanged, and indeed
`floor(D/2) = 0` cycles exist. -/
theorem C8_small_dimensions (x : ℤ) :
    rotate_matrix ([] : List (List ℤ)) = [] ∧
    rotate_matrix [[x]] = [[x]] ∧
    ([] : List (List ℤ)).length / 2 = 0 ∧ [[x]].length / 2 = 0 :=
  ⟨rfl, by simp [rotate_matrix], rfl, by simp⟩

theorem C8_witness : rotate_matrix ([] : List (List ℤ)) = [] ∧
    rotate_matrix [[(7:ℤ)]] = [[(7:ℤ)]] ∧
    ([] : List (List ℤ)).length / 2 = 0 ∧ [[(7:ℤ)]].length / 2 = 0 :=
  C8_small_dimensions 7

/-- C9: `rotate_matrix` is a pure total function of the input matrix (it is
a Lean function); every coordinate produced by `get_cycle` for a cycle in
range lies within `[0, D) × [0, D)`, and every list index the inner loop
reads (`i`, `i+size`, `i+2*size`, `i+3*size` for `i` in `[0, size)`) is a
valid index of the coordinate list, so no error branch is reachable. -/
theorem C9_safe_indexing (D c : ℕ) (hc : c < D / 2) :
    (∀ p ∈ (get_cycle c D).1, inBounds D p) ∧
    (∀ i : ℤ, 0 ≤ i → i < (get_cycle c D).2 →
      0 ≤ i + 3 * (get_cycle c D).2 ∧
      i + 3 * (get_cycle c D).2 < ((get_cycle c D).1.length : ℤ)) := by
  refine ⟨get_cycle_mem_inBounds D c hc, ?_⟩
  intro i h0 hilt
  rw [get_cycle_snd] at hilt ⊢
  rw [get_cycle_length]
  have := sN_pos D c
  push_cast
  omega

theorem C9_witness : (0:ℕ) < 3 / 2 ∧
    ((∀ p ∈ (get_cycle 0 3).1, inBounds 3 p) ∧
    (∀ i : ℤ, 0 ≤ i → i < (get_cycle 0 3).2 →
      0 ≤ i + 3 * (get_cycle 0 3).2 ∧
      i + 3 * (get_cycle 0 3).2 < ((get_cycle 0 3).1.length : ℤ))) :=
  ⟨by decide, C9_safe_indexing 3 0 (by decide)⟩

/-- C10: `rotate_matrix` keeps the shape of a D-by-D matrix (same number of
rows, every row still of length D) and permutes the entries: the multiset
of all entries is unchanged. -/
theorem C10_shape_and_multiset (m : List (List ℤ)) (hWF : WF m) :
    (rotate_matrix m).length = m.length ∧ WF (rotate_matrix m) ∧
    entries (rotate_matrix m) = entries m :=
  ⟨rotate_matrix_length hWF, rotate_matrix_WF hWF, rotate_matrix_entries hWF⟩

theorem C10_witness : WF [[(1:ℤ),2],[3,4]] ∧
    ((rotate_matrix [[(1:ℤ),2],[3,4]]).length = [[(1:ℤ),2],[3,4]].length ∧
    WF (rotate_matrix [[(1:ℤ),2],[3,4]]) ∧
    entries (rotate_matrix [[(1:ℤ),2],[3,4]]) = entries [[(1:ℤ),2],[3,4]]) :=
  ⟨by decide, C10_shape_and_multiset [[(1:ℤ),2],[3,4]] (by decide)⟩

end RotateMatrix
